import Mathlib

/-!
Verification of `convert_to_sqlite.py` (postgres_dump_to_sqlite).

The program has two components:
  * `convert_postgres_to_sqlite` — the Dialect Rewriter: a line-by-line state
    machine rewriting a PostgreSQL dump into SQLite-flavoured SQL
    (modelled here by `stepLine` / `convertLines`);
  * `import_to_sqlite` — the Statement Executor: segments the rewritten text
    into statements and applies each to the SQLite store
    (modelled here by `importStepLine` / `importLines`).

Lines are modelled as `List Char` without their trailing newline; each write
of the Python code appends whole lines, so the output file is a `List Line`.
Unhandled Python exceptions (AttributeError on a failed regex match,
TypeError from calling `next` on a list) are modelled as `Except.error ()`.
-/

namespace PgDump

deriving instance DecidableEq for Except

abbrev Line := List Char

/-- Shorthand to write concrete lines. -/
def L (s : String) : Line := s.toList

/-- ASCII word character, the `\w` class of the Python regexes on this input. -/
def isWordChar (c : Char) : Bool := c.isAlpha || c.isDigit || c = '_'

/-- Whitespace stripped by Python's `str.strip()`. -/
def isSpaceChar (c : Char) : Bool :=
  c = ' ' || c = '\t' || c = '\n' || c = '\r' || c = '\x0b' || c = '\x0c'

/-- Python `str.strip()`. -/
def trimLine (l : Line) : Line :=
  ((l.dropWhile isSpaceChar).reverse.dropWhile isSpaceChar).reverse

/-- Python `p in l` (substring test). -/
def hasSub (p : Line) : Line → Bool
  | [] => p.isPrefixOf ([] : Line)
  | c :: cs => p.isPrefixOf (c :: cs) || hasSub p cs

/-- Worker of `replaceAll`.  The first argument counts characters of a
matched pattern occurrence still to be consumed without emission (structural
recursion so that the kernel can evaluate it). -/
def raAux (p r : Line) : Nat → Line → Line
  | _, [] => []
  | n + 1, _ :: cs => raAux p r n cs
  | 0, c :: cs =>
    if p.isPrefixOf (c :: cs) then r ++ raAux p r (p.length - 1) cs
    else c :: raAux p r 0 cs

/-- Python `str.replace(p, r)` / `re.sub` on a literal pattern: replace all
occurrences of `p` by `r`, scanning left to right without overlap. -/
def replaceAll (p r l : Line) : Line := raAux p r 0 l

/-- The `(?!\w)` lookahead of `rename_index_column`: the position after the
match is the end of the line or a non-word character. -/
def lookaheadOk (l : Line) : Bool :=
  match l with
  | [] => true
  | c :: _ => !(isWordChar c)

/-- The pattern `index(?!\w)` matches at the head of `l`. -/
def riMatch : Line → Bool
  | c1 :: c2 :: c3 :: c4 :: c5 :: rest =>
    c1 == 'i' && c2 == 'n' && c3 == 'd' && c4 == 'e' && c5 == 'x' && lookaheadOk rest
  | _ => false

/-- Replacement text of `rename_index_column`. -/
def usIndexWord : Line := "_index".toList

/-- Worker of `riAux`; the counter holds characters of a match still to be
consumed without emission. -/
def riAuxS : Nat → Bool → Line → Line
  | _, _, [] => []
  | n + 1, b, _ :: cs => riAuxS n b cs
  | 0, b, c :: cs =>
    if !b && riMatch (c :: cs) then usIndexWord ++ riAuxS 4 true cs
    else c :: riAuxS 0 (isWordChar c) cs

/-- Scan of `re.sub(r'(?<!\w)index(?!\w)', '_index', line)`.  The Boolean
argument records whether the previously scanned character is a word character
(the `(?<!\w)` lookbehind); after a match the scan resumes after `index`,
whose last character `x` is a word character. -/
def riAux (b : Bool) (l : Line) : Line := riAuxS 0 b l

/-- `rename_index_column` of the source: rename standalone `index` to
`_index`. -/
def rename_index_column (l : Line) : Line := riAux false l

def serialWord : Line := "SERIAL".toList
def serialRepl : Line := "INTEGER PRIMARY KEY AUTOINCREMENT".toList
def integerWord : Line := "integer".toList
def integerRepl : Line := "INTEGER".toList
def bigintWord : Line := "bigint".toList
def publicWord : Line := "public.".toList

/-- `re.sub(r'public\.', '', line)`. -/
def removePublic (l : Line) : Line := replaceAll publicWord [] l

/-- Transformation rules 3–5 of the Rewriter, in source order:
`SERIAL` → `INTEGER PRIMARY KEY AUTOINCREMENT`, `integer` → `INTEGER`,
`bigint` → `INTEGER`, then the standalone-`index` renaming. -/
def rules345 (l : Line) : Line :=
  rename_index_column
    (replaceAll bigintWord integerRepl
      (replaceAll integerWord integerRepl
        (replaceAll serialWord serialRepl l)))

/-- All per-line textual substitutions of the Rewriter (rules 2–5). -/
def applyLineTransforms (l : Line) : Line := rules345 (removePublic l)

def createTableSp : Line := "CREATE TABLE ".toList

/-- `re.search(r'CREATE TABLE (\w+)', line)`: leftmost occurrence of the
literal `CREATE TABLE ` followed by at least one word character; the capture
is the maximal word-character run. -/
def findCreateTableName : Line → Option Line
  | [] => none
  | c :: cs =>
    if createTableSp.isPrefixOf (c :: cs)
        && !(((c :: cs).drop createTableSp.length).takeWhile isWordChar).isEmpty then
      some (((c :: cs).drop createTableSp.length).takeWhile isWordChar)
    else findCreateTableName cs

def alterTableSp : Line := "ALTER TABLE ".toList
def addConstraintSp : Line := " ADD CONSTRAINT ".toList
def primaryKeySp : Line := " PRIMARY KEY (".toList

/-- The lazy capture `(.*?)\)`: the characters before the first `)`, and the
rest after it; `none` if no `)` follows. -/
def splitAtClose : Line → Option (Line × Line)
  | [] => none
  | c :: cs =>
    if c = ')' then some ([], cs)
    else
      match splitAtClose cs with
      | some ab => some (c :: ab.1, ab.2)
      | none => none

/-- Attempt of the pattern
`ALTER TABLE (\w+) ADD CONSTRAINT \w+ PRIMARY KEY \((.*?)\)` anchored at the
head of `l`; returns the captured table name and column list. -/
def tryAlterAt (l : Line) : Option (Line × Line) :=
  if alterTableSp.isPrefixOf l then
    let r1 := l.drop alterTableSp.length
    let tname := r1.takeWhile isWordChar
    if tname.isEmpty then none
    else
      let r2 := r1.drop tname.length
      if addConstraintSp.isPrefixOf r2 then
        let r3 := r2.drop addConstraintSp.length
        let cname := r3.takeWhile isWordChar
        if cname.isEmpty then none
        else
          let r4 := r3.drop cname.length
          if primaryKeySp.isPrefixOf r4 then
            match splitAtClose (r4.drop primaryKeySp.length) with
            | some ab => some (tname, ab.1)
            | none => none
          else none
      else none
  else none

/-- `re.search` of the ALTER-TABLE/PRIMARY-KEY pattern: leftmost match. -/
def findAlterPK : Line → Option (Line × Line)
  | [] => none
  | c :: cs =>
    match tryAlterAt (c :: cs) with
    | some r => some r
    | none => findAlterPK cs

def closeParenSemi : Line := ");".toList

/-- The in-place rewrite of the already-emitted output (source lines 88–102).
For each line whose stripped text starts with `CREATE TABLE <tname>` the code
writes the line and then enters `while not temp_line.strip().endswith(");")`,
whose body calls `next(lines)` — `lines` is a Python *list*, so this raises
`TypeError` immediately; the clause insertion below it is unreachable.  The
crash is modelled as `.error ()`.  The `cols` argument is the captured column
list, used only by the unreachable insertion. -/
def patchOutput (tname cols : Line) : List Line → Except Unit (List Line)
  | [] => .ok []
  | l :: ls =>
    if (createTableSp ++ tname).isPrefixOf (trimLine l) then
      if closeParenSemi.isSuffixOf (trimLine l) then
        match patchOutput tname cols ls with
        | .ok r => .ok (l :: r)
        | .error e => .error e
      else .error ()
    else
      match patchOutput tname cols ls with
      | .ok r => .ok (l :: r)
      | .error e => .error e

/-- State of the Rewriter: `tables` models the insertion-ordered dict
`create_table_statements` (key = table name, value = buffered lines),
`alterBuf` the string `alter_table_buffer`, `out` the lines written to the
output file so far. -/
structure ConvState where
  tables : List (Line × List Line)
  alterBuf : Line
  out : List Line
deriving DecidableEq

/-- Python dict assignment `d[k] = v`: overwrite in place if the key exists
(keeping its position), else append. -/
def dictSet (k : Line) (v : List Line) (d : List (Line × List Line)) :
    List (Line × List Line) :=
  if d.any (fun p => p.1 == k) then
    d.map (fun p => if p.1 == k then (k, v) else p)
  else d ++ [(k, v)]

def setWord : Line := "SET ".toList
def pgcfgWord : Line := "SELECT pg_catalog.set_config".toList
def withParen : Line := "WITH (".toList
def oidsWord : Line := "OIDS=".toList
def createTableW : Line := "CREATE TABLE".toList
def alterTableW : Line := "ALTER TABLE".toList
def createIndexW : Line := "CREATE INDEX".toList
def semiW : Line := ";".toList
def usingBtree : Line := " USING btree".toList

/-- One iteration of the main loop of `convert_postgres_to_sqlite` on input
line `l0` (without its newline).  `.error ()` is an unhandled exception. -/
def stepLine (st : ConvState) (l0 : Line) : Except Unit ConvState :=
  if setWord.isPrefixOf l0 || pgcfgWord.isPrefixOf l0 then .ok st
  else
    let line := applyLineTransforms l0
    if hasSub withParen line || hasSub oidsWord line then .ok st
    else if createTableW.isPrefixOf (trimLine line) then
      match findCreateTableName line with
      | none => .error ()
      | some t => .ok { st with tables := dictSet t [line] st.tables }
    else if closeParenSemi.isPrefixOf (trimLine line) && !st.tables.isEmpty then
      match st.tables.getLast? with
      | some kv => .ok { st with tables := st.tables.dropLast,
                                 out := st.out ++ kv.2 ++ [line] }
      | none => .ok st
    else if !st.tables.isEmpty then
      match st.tables.getLast? with
      | some kv => .ok { st with
          tables := st.tables.dropLast ++ [(kv.1, kv.2 ++ [line])] }
      | none => .ok st
    else if alterTableW.isPrefixOf (trimLine line) || !st.alterBuf.isEmpty then
      let buf := if !st.alterBuf.isEmpty then st.alterBuf ++ ' ' :: trimLine line
                 else trimLine line
      if hasSub semiW line then
        match findAlterPK buf with
        | some tc =>
          match patchOutput tc.1 tc.2 st.out with
          | .ok newOut => .ok { st with out := newOut, alterBuf := [] }
          | .error e => .error e
        | none => .ok { st with alterBuf := [] }
      else .ok { st with alterBuf := buf }
    else if createIndexW.isPrefixOf line then
      .ok { st with out := st.out ++ [replaceAll usingBtree [] line, []] }
    else .ok { st with out := st.out ++ [line] }

/-- The whole Rewriter pass over the input lines. -/
def convertLines : ConvState → List Line → Except Unit ConvState
  | st, [] => .ok st
  | st, l :: ls =>
    match stepLine st l with
    | .ok st' => convertLines st' ls
    | .error e => .error e

def initConv : ConvState := ⟨[], [], []⟩

/-- Outcome of `cursor.execute` on one statement: success, an
`sqlite3.OperationalError` (the only class the code catches), or an error of
any other class (e.g. `sqlite3.IntegrityError` for a duplicate primary key). -/
inductive ExecResult
  | ok
  | opError
  | otherError
deriving DecidableEq

/-- State of the Executor: the accumulation buffer `current_command` and the
sequence of statements passed to `cursor.execute` so far. -/
structure ImpState where
  buf : Line
  attempts : List Line
deriving DecidableEq

/-- `cursor.execute(stmt)` inside `try/except sqlite3.OperationalError`:
an `opError` is printed and swallowed; any other error class is uncaught and
aborts the run. -/
def tryExec (store : Line → ExecResult) (stmt : Line) (st : ImpState) :
    Except Unit ImpState :=
  match store stmt with
  | .ok => .ok { st with attempts := st.attempts ++ [stmt] }
  | .opError => .ok { st with attempts := st.attempts ++ [stmt] }
  | .otherError => .error ()

def impKeywords : List Line :=
  ["CREATE TABLE".toList, "INSERT INTO".toList,
   "ADD CONSTRAINT".toList, "CREATE INDEX".toList]

/-- One iteration of the loop of `import_to_sqlite` on raw line `raw`. -/
def importStepLine (store : Line → ExecResult) (st : ImpState) (raw : Line) :
    Except Unit ImpState :=
  let line := trimLine raw
  if line.isEmpty || "--".toList.isPrefixOf line || "/*".toList.isPrefixOf line then
    .ok st
  else
    let flushed :=
      if impKeywords.any (fun k => k.isPrefixOf line) && !st.buf.isEmpty then
        tryExec store st.buf { st with buf := [] }
      else .ok st
    match flushed with
    | .error e => .error e
    | .ok st1 =>
      let st2 : ImpState := { st1 with buf := st1.buf ++ line ++ [' '] }
      if semiW.isSuffixOf st2.buf then
        tryExec store st2.buf { st2 with buf := [] }
      else .ok st2

/-- The whole Executor pass over the rewritten lines. -/
def importLines (store : Line → ExecResult) : ImpState → List Line → Except Unit ImpState
  | st, [] => .ok st
  | st, l :: ls =>
    match importStepLine store st l with
    | .ok st' => importLines store st' ls
    | .error e => .error e

def initImp : ImpState := ⟨[], []⟩

/-- A store on which every statement succeeds. -/
def storeAllOk : Line → ExecResult := fun _ => .ok

/-- A store on which every statement fails with `sqlite3.OperationalError`. -/
def storeAllOp : Line → ExecResult := fun _ => .opError

/-! Concrete inputs used by the claim theorems. -/

/-- The spec's example: a CREATE TABLE block followed by an
ALTER TABLE … ADD CONSTRAINT … PRIMARY KEY statement. -/
def c1Lines : List Line :=
  [L "CREATE TABLE t (", L "  id SERIAL,", L "  name text", L ");",
   L "ALTER TABLE t ADD CONSTRAINT t_pkey PRIMARY KEY (id);"]

/-- The output block emitted for the CREATE TABLE part of `c1Lines`. -/
def c1Block : List Line :=
  [L "CREATE TABLE t (", L "  id INTEGER PRIMARY KEY AUTOINCREMENT,",
   L "  name text", L ");"]

def c2Input : List Line := [L "CREATE TABLE t (id INTEGER);"]

def c4Input : List Line := [L "INSERT INTO t VALUES (", L "1,", L "2);"]

/-- The statement (as accumulated by the Executor, with trailing space) that
violates the primary key: same key `1` as the previous insert. -/
def c3Stmt2 : Line := L "INSERT INTO t VALUES (1, 'b'); "

/-- A store raising a non-`OperationalError` failure (an
`sqlite3.IntegrityError`, duplicate primary key) on `c3Stmt2`. -/
def storeDup : Line → ExecResult :=
  fun s => if s = c3Stmt2 then .otherError else .ok

def c3Input : List Line :=
  [L "INSERT INTO t VALUES (1, 'a');", L "INSERT INTO t VALUES (1, 'b');",
   L "INSERT INTO t VALUES (2, 'c');"]

/-- Rewriter state whose emitted output holds a multi-line CREATE TABLE
block for table `t`. -/
def st6 : ConvState := ⟨[], [], [L "CREATE TABLE t (", L "  id INTEGER,", L ");"]⟩

def c6AlterLine : Line := L "ALTER TABLE t ADD CONSTRAINT c PRIMARY KEY (id);"

def c6OkLine : Line := L "ALTER TABLE x OWNER TO bob;"

/-- Rewriter state with one open table-definition block. -/
def st7 : ConvState := ⟨[(L "t", [L "CREATE TABLE t ("])], [], []⟩

/-- A line whose trimmed form starts with `);` but is not exactly `);`. -/
def c7Line : Line := L ");  -- weird"

def c9WithLine : Line := L "CREATE INDEX i ON t USING btree (c) WITH (fillfactor=70);"

def c9IndexLine : Line := L "CREATE INDEX ix_a ON t USING btree (a);"

def c10Line : Line := L "CREATE TABLE \"my table\" ("

/-- A quoted-name CREATE TABLE line that also carries a storage-options
clause: in scope of the C10 claim (no `\w+` table name), but caught by the
`WITH (` filter before the CREATE TABLE branch runs. -/
def c10WithLine : Line := L "CREATE TABLE \"a b\" (x INTEGER) WITH (fillfactor=70);"

/-! ### Helper lemmas -/

/-- Skipping `n` characters is the same as recursing on `l.drop n`. -/
theorem raAux_skip (p r : Line) : ∀ (n : Nat) (l : Line),
    raAux p r n l = raAux p r 0 (l.drop n) := by
  intro n
  induction n with
  | zero => intro l; rfl
  | succ n ih =>
    intro l
    cases l with
    | nil => rfl
    | cons c cs => simpa [raAux] using ih cs

/-- One-step unfolding of `replaceAll` on a nonempty line. -/
theorem replaceAll_cons (p r : Line) (c : Char) (cs : Line) :
    replaceAll p r (c :: cs) =
      if p.isPrefixOf (c :: cs) then r ++ replaceAll p r (cs.drop (p.length - 1))
      else c :: replaceAll p r cs := by
  show raAux p r 0 (c :: cs) = _
  rw [raAux, raAux_skip p r (p.length - 1) cs]
  rfl

theorem replaceAll_nil (p r : Line) : replaceAll p r [] = [] := rfl

/-- Skipping `n` characters in the rename scan. -/
theorem riAuxS_skip : ∀ (n : Nat) (b : Bool) (l : Line),
    riAuxS n b l = riAuxS 0 b (l.drop n) := by
  intro n
  induction n with
  | zero => intro b l; rfl
  | succ n ih =>
    intro b l
    cases l with
    | nil => rfl
    | cons c cs => simpa [riAuxS] using ih b cs

/-- One-step unfolding of the rename scan on a nonempty line. -/
theorem riAux_cons (b : Bool) (c : Char) (cs : Line) :
    riAux b (c :: cs) =
      if !b && riMatch (c :: cs) then usIndexWord ++ riAux true (cs.drop 4)
      else c :: riAux (isWordChar c) cs := by
  show riAuxS 0 b (c :: cs) = _
  rw [riAuxS, riAuxS_skip 4 true cs]
  rfl

theorem riAux_nil (b : Bool) : riAux b [] = [] := rfl

/-- A prefix whose first and last characters are not whitespace survives
`str.strip()`. -/
theorem prefix_trimLine {w l : Line} (h : w <+: l)
    (hh : ∀ c, w.head? = some c → isSpaceChar c = false)
    (hl : ∀ c, w.getLast? = some c → isSpaceChar c = false) :
    w <+: trimLine l := by
  cases w with
  | nil => exact List.nil_prefix
  | cons a w' =>
    obtain ⟨r, rfl⟩ := h
    unfold trimLine
    have hdw : (((a :: w') ++ r).dropWhile isSpaceChar) = (a :: w') ++ r := by
      rw [List.cons_append, List.dropWhile_cons]
      simp [hh a rfl]
    rw [hdw, List.reverse_append, List.dropWhile_append]
    split
    · have hne : (a :: w').reverse ≠ [] := by simp
      obtain ⟨d, t, hdt⟩ := List.exists_cons_of_ne_nil hne
      have hd : isSpaceChar d = false := by
        apply hl
        rw [← List.head?_reverse, hdt]
        rfl
      rw [hdt, List.dropWhile_cons, hd]
      simp only [Bool.false_eq_true, if_false]
      rw [← hdt, List.reverse_reverse]
    · rw [List.reverse_append, List.reverse_reverse]
      exact List.prefix_append _ _

/-- When no emitted line starts the referenced table's CREATE TABLE
statement, the in-place rewrite copies the output unchanged. -/
theorem patchOutput_of_not_found {t c : Line} :
    ∀ ls : List Line,
      (∀ l ∈ ls, (createTableSp ++ t).isPrefixOf (trimLine l) = false) →
      patchOutput t c ls = .ok ls := by
  intro ls
  induction ls with
  | nil => intro _; rfl
  | cons l ls ih =>
    intro h
    have hl := h l (List.mem_cons_self l ls)
    have hrest := ih (fun x hx => h x (List.mem_cons_of_mem l hx))
    simp [patchOutput, hl, hrest]

/-- Swapping the store for `storeAllOk` does not change a single executor
step, as long as the store never raises outside the caught class. -/
theorem importStepLine_store_irrelevant {store : Line → ExecResult}
    (h : ∀ s, store s ≠ .otherError) (st : ImpState) (l : Line) :
    importStepLine store st l = importStepLine storeAllOk st l := by
  have ht : ∀ s st', tryExec store s st' = tryExec storeAllOk s st' := by
    intro s st'
    cases hs : store s with
    | ok => simp [tryExec, hs, storeAllOk]
    | opError => simp [tryExec, hs, storeAllOk]
    | otherError => exact absurd hs (h s)
  simp only [importStepLine, ht]

/-- With the always-succeeding store, one executor step never fails. -/
theorem importStepLine_allOk (st : ImpState) (l : Line) :
    ∃ st', importStepLine storeAllOk st l = .ok st' := by
  unfold importStepLine tryExec storeAllOk
  dsimp only
  split
  · exact ⟨st, rfl⟩
  · split
    · rename_i heq
      split at heq <;> exact absurd heq (by simp)
    · rename_i st1 heq
      split
      · exact ⟨_, rfl⟩
      · exact ⟨_, rfl⟩

/-- Whole-run versions of the two previous lemmas. -/
theorem importLines_store_irrelevant {store : Line → ExecResult}
    (h : ∀ s, store s ≠ .otherError) :
    ∀ (ls : List Line) (st : ImpState),
      importLines store st ls = importLines storeAllOk st ls := by
  intro ls
  induction ls with
  | nil => intro st; rfl
  | cons l ls ih =>
    intro st
    simp only [importLines, importStepLine_store_irrelevant h st l]
    cases himp : importStepLine storeAllOk st l with
    | ok st' => exact ih st'
    | error e => rfl

theorem importLines_allOk :
    ∀ (ls : List Line) (st : ImpState),
      ∃ st', importLines storeAllOk st ls = .ok st' := by
  intro ls
  induction ls with
  | nil => intro st; exact ⟨st, rfl⟩
  | cons l ls ih =>
    intro st
    obtain ⟨st1, h1⟩ := importStepLine_allOk st l
    obtain ⟨st2, h2⟩ := ih st1
    exact ⟨st2, by simp only [importLines, h1, h2]⟩

/-! ### Claim theorems -/

/-- C1: the in-place PRIMARY KEY patch-back never produces the rewritten
block: on the spec's own example the CREATE TABLE block is first emitted
correctly, but the arrival of the matching ALTER TABLE statement crashes the
conversion (TypeError from `next(lines)` on a list) instead of splicing
`PRIMARY KEY (id)` before the terminator. -/
theorem c1_alter_patch_crashes :
    convertLines initConv (c1Lines.take 4) = .ok ⟨[], [], c1Block⟩ ∧
    convertLines initConv c1Lines = .error () := by
  constructor
  · decide
  · decide

/-- C2: the terminator-triggered execution never fires.  Every line is
appended to the buffer with a trailing space, so the buffer always ends with
a space and `current_command.endswith(';')` is always false: a file holding
one complete `;`-terminated statement is imported with zero statements
executed. -/
theorem c2_semicolon_flush_never_fires :
    importLines storeAllOk initImp c2Input =
      .ok ⟨L "CREATE TABLE t (id INTEGER); ", []⟩ := by
  decide

/-- C3 counterexample: a statement failing with a non-`OperationalError`
store failure (duplicate primary key raises `sqlite3.IntegrityError`, which
the executor does not catch) aborts the whole import. -/
theorem c3_integrity_error_aborts :
    importLines storeDup initImp c3Input = .error () := by
  decide

/-- C3 (amended): a statement that fails with `sqlite3.OperationalError` is
reported and the executor continues exactly as if it had succeeded; the run
never aborts as long as no statement fails outside that class. -/
theorem c3_op_errors_continue (store : Line → ExecResult) (ls : List Line)
    (h : ∀ s, store s ≠ .otherError) :
    ∃ st, importLines store initImp ls = .ok st ∧
          importLines storeAllOk initImp ls = .ok st := by
  obtain ⟨st, hst⟩ := importLines_allOk ls initImp
  exact ⟨st, by rw [importLines_store_irrelevant h ls initImp]; exact hst, hst⟩

/-- C3 witness. -/
theorem c3_op_errors_continue_witness :
    ∃ st, importLines storeAllOp initImp c3Input = .ok st ∧
          importLines storeAllOk initImp c3Input = .ok st :=
  c3_op_errors_continue storeAllOp c3Input (fun s => by simp [storeAllOp])

/-- C4: a statement spanning several physical lines with no leading keyword
on the later lines is accumulated but, when it is the last statement of the
file, executed zero times — the buffer is never flushed at end of input and
the terminator check never fires.  (When another keyword-led statement
follows, the accumulated statement is executed exactly once, by the keyword
flush.) -/
theorem c4_last_statement_never_executed :
    importLines storeAllOk initImp c4Input =
      .ok ⟨L "INSERT INTO t VALUES ( 1, 2); ", []⟩ ∧
    importLines storeAllOk initImp (c4Input ++ [L "INSERT INTO u VALUES (3);"]) =
      .ok ⟨L "INSERT INTO u VALUES (3); ", [L "INSERT INTO t VALUES ( 1, 2); "]⟩ := by
  constructor
  · decide
  · decide

/-- C5: the `index` renaming does rewrite occurrences inside string
literals: quotes are not word characters, so `'index'` becomes `'_index'`,
contrary to the claim (and to the function's own docstring).  Standalone
identifiers are renamed and longer identifiers left alone, as claimed. -/
theorem c5_string_literal_renamed :
    rename_index_column (L "INSERT INTO t VALUES ('index');") =
      L "INSERT INTO t VALUES ('_index');" ∧
    rename_index_column (L "index INTEGER, myindex") = L "_index INTEGER, myindex" := by
  constructor
  · decide
  · decide

/-- C6 counterexample: when the accumulated ALTER text does match the
PRIMARY KEY pattern and the table's CREATE TABLE line is found in the
output, the step aborts with the patch-back TypeError — the buffer is not
cleared, so it is not cleared "regardless of match outcome". -/
theorem c6_matched_alter_crashes_before_clear :
    stepLine st6 c6AlterLine = .error () := by
  decide

/-- C6 (amended): when the accumulated ALTER text contains `;` and either
the PRIMARY KEY pattern does not match or no emitted line starts the
referenced table's CREATE TABLE statement, the ALTER statement is silently
dropped — output unchanged, no diagnostic — and the alter-buffer is
cleared. -/
theorem c6_unmatched_alter_silently_dropped (st : ConvState) (l0 : Line)
    (ht : st.tables = [])
    (h1 : setWord.isPrefixOf l0 = false)
    (h2 : pgcfgWord.isPrefixOf l0 = false)
    (h3 : hasSub withParen (applyLineTransforms l0) = false)
    (h4 : hasSub oidsWord (applyLineTransforms l0) = false)
    (h5 : createTableW.isPrefixOf (trimLine (applyLineTransforms l0)) = false)
    (h6 : alterTableW.isPrefixOf (trimLine (applyLineTransforms l0)) = true ∨
          st.alterBuf.isEmpty = false)
    (h7 : hasSub semiW (applyLineTransforms l0) = true)
    (h8 : ∀ tc, findAlterPK
            (if !st.alterBuf.isEmpty then
               st.alterBuf ++ ' ' :: trimLine (applyLineTransforms l0)
             else trimLine (applyLineTransforms l0)) = some tc →
          ∀ l ∈ st.out, (createTableSp ++ tc.1).isPrefixOf (trimLine l) = false) :
    stepLine st l0 = .ok ⟨[], [], st.out⟩ := by
  obtain ⟨tabs, ab, out⟩ := st
  simp only at ht h6 h8 ⊢
  subst ht
  simp only [stepLine, h1, h2, h3, h4, h5, h7, Bool.or_self, Bool.false_or,
    List.isEmpty_nil, Bool.not_true, Bool.and_false, Bool.false_eq_true,
    if_false, if_true]
  rcases h6 with h6 | h6
  · simp only [h6, Bool.true_or, if_true]
    cases hfa : findAlterPK (if !ab.isEmpty then ab ++ ' ' :: trimLine (applyLineTransforms l0)
        else trimLine (applyLineTransforms l0)) with
    | none => simp [hfa]
    | some tc =>
      have := patchOutput_of_not_found (t := tc.1) (c := tc.2) out (h8 tc hfa)
      simp [hfa, this]
  · simp only [h6, Bool.not_false, Bool.or_true, if_true] at h8 ⊢
    cases hfa : findAlterPK (ab ++ ' ' :: trimLine (applyLineTransforms l0)) with
    | none => simp [hfa]
    | some tc =>
      have := patchOutput_of_not_found (t := tc.1) (c := tc.2) out (h8 tc hfa)
      simp [hfa, this]

/-- C6 witness. -/
theorem c6_unmatched_alter_silently_dropped_witness :
    stepLine initConv c6OkLine = .ok ⟨[], [], []⟩ :=
  c6_unmatched_alter_silently_dropped initConv c6OkLine rfl (by decide) (by decide)
    (by decide) (by decide) (by decide) (Or.inl (by decide)) (by decide)
    (fun tc _ l hl => absurd hl (List.not_mem_nil l))

/-- C7 counterexample: a line whose trimmed form starts with `);` without
being exactly `);` still closes the open block — it is flushed to the
output, not appended-and-held as the claim requires. -/
theorem c7_loose_terminator_flushes :
    stepLine st7 c7Line = .ok ⟨[], [], [L "CREATE TABLE t (", c7Line]⟩ ∧
    trimLine (applyLineTransforms c7Line) ≠ closeParenSemi := by
  constructor
  · decide
  · decide

/-- C7 (amended): while at least one table block is open, every line that
survives the directive/options filters and does not itself start a CREATE
TABLE statement is appended (after the per-line transforms) to the
most-recently-opened table's buffer with nothing emitted — unless its
trimmed form starts with `);`, in which case the line is appended and the
whole buffered block of the last-opened entry is flushed and cleared. -/
theorem c7_open_block_buffering (st : ConvState) (l0 : Line)
    (ht : st.tables.isEmpty = false)
    (h1 : setWord.isPrefixOf l0 = false)
    (h2 : pgcfgWord.isPrefixOf l0 = false)
    (h3 : hasSub withParen (applyLineTransforms l0) = false)
    (h4 : hasSub oidsWord (applyLineTransforms l0) = false)
    (h5 : createTableW.isPrefixOf (trimLine (applyLineTransforms l0)) = false) :
    ∃ kv, st.tables.getLast? = some kv ∧
      stepLine st l0 = .ok
        (if closeParenSemi.isPrefixOf (trimLine (applyLineTransforms l0)) then
          ⟨st.tables.dropLast, st.alterBuf,
            st.out ++ kv.2 ++ [applyLineTransforms l0]⟩
        else
          ⟨st.tables.dropLast ++ [(kv.1, kv.2 ++ [applyLineTransforms l0])],
            st.alterBuf, st.out⟩) := by
  have htne : st.tables ≠ [] := by
    intro hc
    rw [hc] at ht
    simp at ht
  obtain ⟨kv, hkv⟩ := Option.isSome_iff_exists.mp (List.getLast?_isSome.mpr htne)
  refine ⟨kv, hkv, ?_⟩
  by_cases hcp : closeParenSemi.isPrefixOf (trimLine (applyLineTransforms l0)) = true
  · simp only [stepLine, h1, h2, h3, h4, h5, hcp, ht, Bool.or_self,
      Bool.false_eq_true, if_false, Bool.not_false, Bool.and_self, if_true, hkv]
  · have hcp' : closeParenSemi.isPrefixOf (trimLine (applyLineTransforms l0)) = false :=
      Bool.not_eq_true _ ▸ Bool.of_not_eq_true hcp
    simp only [stepLine, h1, h2, h3, h4, h5, hcp', ht, Bool.or_self,
      Bool.false_eq_true, if_false, Bool.false_and, Bool.not_false, if_true, hkv]

/-- C7 witness. -/
theorem c7_open_block_buffering_witness :
    ∃ kv, st7.tables.getLast? = some kv ∧
      stepLine st7 (L "  x INTEGER,") = .ok
        (if closeParenSemi.isPrefixOf (trimLine (applyLineTransforms (L "  x INTEGER,"))) then
          ⟨st7.tables.dropLast, st7.alterBuf,
            st7.out ++ kv.2 ++ [applyLineTransforms (L "  x INTEGER,")]⟩
        else
          ⟨st7.tables.dropLast ++ [(kv.1, kv.2 ++ [applyLineTransforms (L "  x INTEGER,")])],
            st7.alterBuf, st7.out⟩) :=
  c7_open_block_buffering st7 (L "  x INTEGER,") (by decide) (by decide) (by decide)
    (by decide) (by decide) (by decide)

/-- C9 counterexample: a CREATE INDEX line containing the storage-options
substring `WITH (` is dropped by the options filter — nothing is emitted,
contrary to the claim that every CREATE INDEX line is emitted with
` USING btree` stripped. -/
theorem c9_with_options_line_dropped :
    stepLine initConv c9WithLine = .ok initConv ∧
    createIndexW.isPrefixOf (applyLineTransforms c9WithLine) = true := by
  constructor
  · decide
  · decide

/-- C9 (amended): a line starting with `CREATE INDEX`, processed with no
open table block and an empty alter-buffer and containing neither `WITH (`
nor `OIDS=`, is emitted immediately with every ` USING btree` substring
removed, followed by exactly one blank separator line. -/
theorem c9_create_index_emitted (st : ConvState) (l0 : Line)
    (ht : st.tables = []) (ha : st.alterBuf = [])
    (h1 : setWord.isPrefixOf l0 = false)
    (h2 : pgcfgWord.isPrefixOf l0 = false)
    (h3 : hasSub withParen (applyLineTransforms l0) = false)
    (h4 : hasSub oidsWord (applyLineTransforms l0) = false)
    (h5 : createIndexW.isPrefixOf (applyLineTransforms l0) = true) :
    stepLine st l0 = .ok { st with
      out := st.out ++ [replaceAll usingBtree [] (applyLineTransforms l0), []] } := by
  have htrim : createIndexW <+: trimLine (applyLineTransforms l0) :=
    prefix_trimLine (List.isPrefixOf_iff_prefix.mp h5)
      (by intro c hc; cases hc; rfl) (by intro c hc; cases hc; rfl)
  have hct : createTableW.isPrefixOf (trimLine (applyLineTransforms l0)) = false := by
    cases hcv : createTableW.isPrefixOf (trimLine (applyLineTransforms l0)) with
    | false => rfl
    | true =>
      have h' := List.isPrefixOf_iff_prefix.mp hcv
      have habs := List.prefix_of_prefix_length_le h' htrim (by decide)
      exact absurd habs (by decide)
  have hat : alterTableW.isPrefixOf (trimLine (applyLineTransforms l0)) = false := by
    cases hcv : alterTableW.isPrefixOf (trimLine (applyLineTransforms l0)) with
    | false => rfl
    | true =>
      have h' := List.isPrefixOf_iff_prefix.mp hcv
      have habs := List.prefix_of_prefix_length_le h' htrim (by decide)
      exact absurd habs (by decide)
  simp only [stepLine, h1, h2, h3, h4, h5, hct, hat, ht, ha, Bool.or_self,
    List.isEmpty_nil, Bool.not_true, Bool.and_false, Bool.or_false,
    Bool.false_eq_true, if_false, if_true]

/-- C9 witness. -/
theorem c9_create_index_emitted_witness :
    stepLine initConv c9IndexLine = .ok { initConv with
      out := initConv.out ++
        [replaceAll usingBtree [] (applyLineTransforms c9IndexLine), []] } :=
  c9_create_index_emitted initConv c9IndexLine rfl rfl (by decide) (by decide)
    (by decide) (by decide) (by decide)

/-- C10 counterexample: a line that after trimming starts with
`CREATE TABLE` and has no bare-word table name, but contains the
storage-options substring `WITH (`, is silently skipped by the options
filter before the CREATE TABLE branch can raise — so the claim's "rather
than emitting, buffering, or skipping the line" fails as stated. -/
theorem c10_with_options_create_table_skipped :
    stepLine initConv c10WithLine = .ok initConv ∧
    createTableW.isPrefixOf (trimLine (applyLineTransforms c10WithLine)) = true ∧
    findCreateTableName (applyLineTransforms c10WithLine) = none := by
  refine ⟨?_, ?_, ?_⟩
  · decide
  · decide
  · decide

/-- C10 (amended): an input line that is not a SET/`pg_catalog.set_config`
directive, whose transformed text contains neither `WITH (` nor `OIDS=`,
whose trimmed, transformed text starts with `CREATE TABLE`, and in which
the regex `CREATE TABLE (\w+)` finds no match (for instance a double-quoted
table name) crashes the Rewriter — the failed `re.search` returns `None`
and the `.group(1)` attribute access raises — in any Rewriter state; such a
line is neither emitted, buffered nor skipped.  (A line in the claim's
scope that does contain `WITH (` or `OIDS=` is instead silently skipped by
the options filter, as the counterexample shows.) -/
theorem c10_unnamed_create_table_crashes (st : ConvState) (l0 : Line)
    (h1 : setWord.isPrefixOf l0 = false)
    (h2 : pgcfgWord.isPrefixOf l0 = false)
    (h3 : hasSub withParen (applyLineTransforms l0) = false)
    (h4 : hasSub oidsWord (applyLineTransforms l0) = false)
    (h5 : createTableW.isPrefixOf (trimLine (applyLineTransforms l0)) = true)
    (h6 : findCreateTableName (applyLineTransforms l0) = none) :
    stepLine st l0 = .error () := by
  simp [stepLine, h1, h2, h3, h4, h5, h6]

/-- C10 witness. -/
theorem c10_unnamed_create_table_crashes_witness :
    stepLine initConv c10Line = .error () :=
  c10_unnamed_create_table_crashes initConv c10Line (by decide) (by decide)
    (by decide) (by decide) (by decide) (by decide)

/-! ### Machinery for the idempotence claim (C8)

A replacement pass can only create a new occurrence of a word `q` if `q`
occurs inside the replacement text `r`, or straddles one of its ends.  The
lemmas below capture this; the straddle conditions are finite and decidable
for the concrete words of the program. -/

/-- Decompose a prefix of an append. -/
theorem prefix_append_cases : ∀ (a p b : Line), p <+: a ++ b →
    p <+: a ∨ ∃ v, p = a ++ v ∧ v <+: b := by
  intro a
  induction a with
  | nil =>
    intro p b h
    exact Or.inr ⟨p, rfl, h⟩
  | cons x a' ih =>
    intro p b h
    cases p with
    | nil => exact Or.inl List.nil_prefix
    | cons y p' =>
      rw [List.cons_append, List.cons_prefix_cons] at h
      obtain ⟨rfl, h'⟩ := h
      rcases ih p' b h' with h'' | ⟨v, hveq, hv⟩
      · exact Or.inl (List.cons_prefix_cons.mpr ⟨rfl, h''⟩)
      · subst hveq
        exact Or.inr ⟨v, rfl, hv⟩

/-- Decompose an infix of an append: inside the left part, inside the right
part, or straddling the boundary. -/
theorem infix_append_cases : ∀ (a p b : Line), p <:+: a ++ b →
    p <:+: a ∨ p <:+: b ∨
      ∃ u v, p = u ++ v ∧ u ≠ [] ∧ v ≠ [] ∧ u <:+ a ∧ v <+: b := by
  intro a
  induction a with
  | nil =>
    intro p b h
    exact Or.inr (Or.inl h)
  | cons x a' ih =>
    intro p b h
    rw [List.cons_append, List.infix_cons_iff] at h
    rcases h with h | h
    · rcases prefix_append_cases (x :: a') p b (by rw [List.cons_append]; exact h)
        with h' | ⟨v, hpv, hv⟩
      · exact Or.inl h'.isInfix
      · cases v with
        | nil =>
          subst hpv
          exact Or.inl (by simp)
        | cons z v' =>
          subst hpv
          exact Or.inr (Or.inr ⟨x :: a', z :: v', rfl, by simp, by simp,
            List.suffix_refl _, hv⟩)
    · rcases ih p b h with h' | h' | ⟨u, v, hpv, hu, hv, hua, hvb⟩
      · exact Or.inl (h'.trans (List.suffix_cons x a').isInfix)
      · exact Or.inr (Or.inl h')
      · exact Or.inr (Or.inr ⟨u, v, hpv, hu, hv, hua.trans (List.suffix_cons x a'), hvb⟩)

/-- `str.replace` leaves a string without occurrences unchanged. -/
theorem replaceAll_id_of_no_occurrence {p r : Line} :
    ∀ l, ¬ p <:+: l → replaceAll p r l = l := by
  intro l
  induction l with
  | nil => intro _; rfl
  | cons c cs ih =>
    intro h
    have hnp : p.isPrefixOf (c :: cs) = false := by
      cases hv : p.isPrefixOf (c :: cs) with
      | false => rfl
      | true => exact absurd (List.isPrefixOf_iff_prefix.mp hv).isInfix h
    rw [replaceAll_cons]
    simp only [hnp, Bool.false_eq_true, if_false]
    rw [ih (fun hc => h (hc.trans (List.suffix_cons c cs).isInfix))]

/-- A suffix is a `drop`. -/
theorem suffix_eq_drop {w q : Line} (h : w <:+ q) :
    ∃ i, w = q.drop i ∧ i + w.length = q.length := by
  obtain ⟨t, rfl⟩ := h
  refine ⟨t.length, ?_, by simp⟩
  rw [List.drop_left]

/-- If a nonempty suffix `w` of a word `q` is a prefix of a replacement
output, it was already a prefix of the input (hypotheses: `q` neither occurs
at the start of `r` after losing a nonempty prefix, nor contains `r`). -/
theorem prefix_of_replaceAll {p r q : Line}
    (g1 : ¬ q <:+: r)
    (g3 : ∀ i, i < q.length → 0 < i → ¬ (q.drop i <+: r))
    (g4 : ¬ r <:+: q) :
    ∀ (l w : Line), w ≠ [] → w <:+ q → w <+: replaceAll p r l → w <+: l := by
  have key : ∀ n, ∀ l : Line, l.length ≤ n → ∀ w, w ≠ [] → w <:+ q →
      w <+: replaceAll p r l → w <+: l := by
    intro n
    induction n with
    | zero =>
      intro l hl w _ _ hpre
      have hnil : l = [] := List.length_eq_zero.mp (Nat.le_zero.mp hl)
      subst hnil
      exact hpre
    | succ n ih =>
      intro l hl w hw hwq hpre
      cases l with
      | nil => exact hpre
      | cons c cs =>
        have hcs : cs.length ≤ n := by
          simp only [List.length_cons] at hl
          omega
        rw [replaceAll_cons] at hpre
        by_cases hm : p.isPrefixOf (c :: cs) = true
        · rw [if_pos hm] at hpre
          exfalso
          by_cases hlen : w.length ≤ r.length
          · have hwr : w <+: r :=
              List.prefix_of_prefix_length_le hpre (List.prefix_append r _) hlen
            obtain ⟨i, hwi, hsum⟩ := suffix_eq_drop hwq
            rcases Nat.eq_zero_or_pos i with hi | hi
            · subst hi
              rw [List.drop_zero] at hwi
              subst hwi
              exact g1 hwr.isInfix
            · have hwlen : 0 < w.length := List.length_pos.mpr hw
              exact g3 i (by omega) hi (hwi ▸ hwr)
          · have hrw : r <+: w :=
              List.prefix_of_prefix_length_le (List.prefix_append r _) hpre (by omega)
            obtain ⟨a, ha⟩ := hrw
            obtain ⟨b, hb⟩ := hwq
            exact g4 ⟨b, a, by rw [List.append_assoc, ha, hb]⟩
        · rw [if_neg hm] at hpre
          cases w with
          | nil => exact absurd rfl hw
          | cons d w' =>
            rw [List.cons_prefix_cons] at hpre
            obtain ⟨rfl, hw'⟩ := hpre
            by_cases hw'nil : w' = []
            · subst hw'nil
              exact List.cons_prefix_cons.mpr ⟨rfl, List.nil_prefix⟩
            · have hw'q : w' <:+ q := (List.suffix_cons d w').trans hwq
              exact List.cons_prefix_cons.mpr
                ⟨rfl, ih cs hcs w' hw'nil hw'q hw'⟩
  intro l
  exact key l.length l (le_refl _)

/-- After replacing every occurrence of `p`, the pattern `p` no longer
occurs, provided it does not occur in or straddle the replacement. -/
theorem not_infix_replaceAll_self {p r : Line}
    (hP : p ≠ [])
    (hA : ¬ p <:+: r)
    (hB : ∀ i, i < p.length → 0 < i → ¬ (p.take i <:+ r))
    (hC : ∀ i, i < p.length → 0 < i → ¬ (p.drop i <+: r))
    (hG : ¬ r <:+: p) :
    ∀ l, ¬ p <:+: replaceAll p r l := by
  have key : ∀ n, ∀ l : Line, l.length ≤ n → ¬ p <:+: replaceAll p r l := by
    intro n
    induction n with
    | zero =>
      intro l hl
      have hnil : l = [] := List.length_eq_zero.mp (Nat.le_zero.mp hl)
      subst hnil
      intro hinf
      exact hP (List.infix_nil.mp hinf)
    | succ n ih =>
      intro l hl
      cases l with
      | nil =>
        intro hinf
        exact hP (List.infix_nil.mp hinf)
      | cons c cs =>
        have hcs : cs.length ≤ n := by
          simp only [List.length_cons] at hl
          omega
        by_cases hm : p.isPrefixOf (c :: cs) = true
        · rw [replaceAll_cons, if_pos hm]
          intro hinf
          rcases infix_append_cases r p _ hinf with h' | h' | ⟨u, v, hpv, hu, hv, hur, _⟩
          · exact hA h'
          · have hdl : (cs.drop (p.length - 1)).length ≤ n := by
              simp only [List.length_drop]
              omega
            exact ih _ hdl h'
          · have hul : u = p.take u.length := by rw [hpv, List.take_left]
            have hvlen : 0 < v.length := List.length_pos.mpr hv
            have hplen := congrArg List.length hpv
            simp only [List.length_append] at hplen
            exact hB u.length (by omega) (List.length_pos.mpr hu) (hul ▸ hur)
        · rw [replaceAll_cons, if_neg hm]
          intro hinf
          rcases List.infix_cons_iff.mp hinf with h' | h'
          · have hpre : p <+: replaceAll p r (c :: cs) := by
              rw [replaceAll_cons, if_neg hm]
              exact h'
            have hponl := prefix_of_replaceAll hA hC hG (c :: cs) p hP
              (List.suffix_refl p) hpre
            exact hm (List.isPrefixOf_iff_prefix.mpr hponl)
          · exact ih cs hcs h'
  intro l
  exact key l.length l (le_refl _)

/-- Replacing a pattern `p` cannot create an occurrence of a different word
`q`, provided `q` does not occur in or straddle the replacement. -/
theorem not_infix_replaceAll_other {p r q : Line}
    (hq : q ≠ [])
    (g1 : ¬ q <:+: r)
    (g2 : ∀ i, i < q.length → 0 < i → ¬ (q.take i <:+ r))
    (g3 : ∀ i, i < q.length → 0 < i → ¬ (q.drop i <+: r))
    (g4 : ¬ r <:+: q) :
    ∀ l, ¬ q <:+: l → ¬ q <:+: replaceAll p r l := by
  have key : ∀ n, ∀ l : Line, l.length ≤ n → ¬ q <:+: l →
      ¬ q <:+: replaceAll p r l := by
    intro n
    induction n with
    | zero =>
      intro l hl hql
      have hnil : l = [] := List.length_eq_zero.mp (Nat.le_zero.mp hl)
      subst hnil
      exact hql
    | succ n ih =>
      intro l hl hql
      cases l with
      | nil => exact hql
      | cons c cs =>
        have hcs : cs.length ≤ n := by
          simp only [List.length_cons] at hl
          omega
        have hqcs : ¬ q <:+: cs :=
          fun hc => hql (hc.trans (List.suffix_cons c cs).isInfix)
        by_cases hm : p.isPrefixOf (c :: cs) = true
        · rw [replaceAll_cons, if_pos hm]
          intro hinf
          rcases infix_append_cases r q _ hinf with h' | h' | ⟨u, v, hpv, hu, hv, hur, _⟩
          · exact g1 h'
          · have hd : ¬ q <:+: cs.drop (p.length - 1) :=
              fun hc => hqcs (hc.trans (List.drop_suffix _ _).isInfix)
            have hdl : (cs.drop (p.length - 1)).length ≤ n := by
              simp only [List.length_drop]
              omega
            exact ih _ hdl hd h'
          · have hul : u = q.take u.length := by rw [hpv, List.take_left]
            have hvlen : 0 < v.length := List.length_pos.mpr hv
            have hplen := congrArg List.length hpv
            simp only [List.length_append] at hplen
            exact g2 u.length (by omega) (List.length_pos.mpr hu) (hul ▸ hur)
        · rw [replaceAll_cons, if_neg hm]
          intro hinf
          rcases List.infix_cons_iff.mp hinf with h' | h'
          · have hpre : q <+: replaceAll p r (c :: cs) := by
              rw [replaceAll_cons, if_neg hm]
              exact h'
            have hponl := prefix_of_replaceAll g1 g3 g4 (c :: cs) q hq
              (List.suffix_refl q) hpre
            exact hql hponl.isInfix
          · exact ih cs hcs hqcs h'
  intro l
  exact key l.length l (le_refl _)

theorem usIndexWord_eq : usIndexWord = '_' :: 'i' :: 'n' :: 'd' :: 'e' :: 'x' :: [] := rfl

theorem riMatch_index (X : Line) :
    riMatch ('i' :: 'n' :: 'd' :: 'e' :: 'x' :: X) = lookaheadOk X := rfl

theorem riMatch_us (X : Line) : riMatch ('_' :: X) = false := by
  rcases X with _ | ⟨a, _ | ⟨b, _ | ⟨c, _ | ⟨d, t⟩⟩⟩⟩ <;> rfl

/-- Elimination form of a rename-pattern match. -/
theorem riMatch_elim {l : Line} (h : riMatch l = true) :
    ∃ rest, l = 'i' :: 'n' :: 'd' :: 'e' :: 'x' :: rest ∧ lookaheadOk rest = true := by
  rcases l with _ | ⟨c1, _ | ⟨c2, _ | ⟨c3, _ | ⟨c4, _ | ⟨c5, rest⟩⟩⟩⟩⟩ <;>
    simp [riMatch] at h
  obtain ⟨⟨⟨⟨⟨h1, h2⟩, h3⟩, h4⟩, h5⟩, h6⟩ := h
  subst h1
  subst h2
  subst h3
  subst h4
  subst h5
  exact ⟨rest, rfl, h6⟩

/-- Scanning a kept `_` (never the head of a match). -/
theorem riAux_cons_us (X : Line) : riAux false ('_' :: X) = '_' :: riAux true X := by
  rw [riAux_cons, riMatch_us]
  rfl

/-- Scanning any character right after a word character keeps it. -/
theorem riAux_cons_wtrue (c : Char) (hc : isWordChar c = true) {X : Line} :
    riAux true (c :: X) = c :: riAux true X := by
  rw [riAux_cons, hc]
  rfl

/-- Scanning a rename match emits the replacement. -/
theorem riAux_match (rest : Line) (hla : lookaheadOk rest = true) :
    riAux false ('i' :: 'n' :: 'd' :: 'e' :: 'x' :: rest) =
      usIndexWord ++ riAux true rest := by
  rw [riAux_cons, riMatch_index, hla]
  rfl

theorem riAux_eq_nil_iff {b : Bool} {l : Line} : riAux b l = [] ↔ l = [] := by
  constructor
  · intro h
    cases l with
    | nil => rfl
    | cons c cs =>
      rw [riAux_cons] at h
      by_cases hm : (!b && riMatch (c :: cs)) = true
      · rw [if_pos hm] at h
        simp [usIndexWord_eq] at h
      · rw [if_neg hm] at h
        simp at h
  · intro h
    subst h
    rfl

/-- A non-`_` head of the rename output is a kept head of the input. -/
theorem riAux_head {b : Bool} {l : Line} {c : Char} {t : Line}
    (h : riAux b l = c :: t) (hc : c ≠ '_') :
    ∃ cs, l = c :: cs ∧ t = riAux (isWordChar c) cs := by
  cases l with
  | nil => exact absurd h (by simp [riAux_nil])
  | cons c' cs =>
    rw [riAux_cons] at h
    by_cases hm : (!b && riMatch (c' :: cs)) = true
    · rw [if_pos hm, usIndexWord_eq, List.cons_append] at h
      rw [List.cons.injEq] at h
      exact absurd h.1.symm hc
    · rw [if_neg hm] at h
      rw [List.cons.injEq] at h
      obtain ⟨h1, h2⟩ := h
      subst h1
      exact ⟨cs, rfl, h2.symm⟩

/-- If a nonempty suffix `w` of a word `q` is a prefix of the rename output,
it was already a prefix of the input. -/
theorem prefix_of_riAux {q : Line}
    (g1 : ¬ q <:+: usIndexWord)
    (g3 : ∀ i, i < q.length → 0 < i → ¬ (q.drop i <+: usIndexWord))
    (g4 : ¬ usIndexWord <:+: q) :
    ∀ (l : Line) (b : Bool) (w : Line), w ≠ [] → w <:+ q →
      w <+: riAux b l → w <+: l := by
  have key : ∀ n, ∀ l : Line, l.length ≤ n → ∀ (b : Bool) (w : Line), w ≠ [] →
      w <:+ q → w <+: riAux b l → w <+: l := by
    intro n
    induction n with
    | zero =>
      intro l hl _ w _ _ hpre
      have hnil : l = [] := List.length_eq_zero.mp (Nat.le_zero.mp hl)
      subst hnil
      exact hpre
    | succ n ih =>
      intro l hl b w hw hwq hpre
      cases l with
      | nil => exact hpre
      | cons c cs =>
        have hcs : cs.length ≤ n := by
          simp only [List.length_cons] at hl
          omega
        rw [riAux_cons] at hpre
        by_cases hm : (!b && riMatch (c :: cs)) = true
        · rw [if_pos hm] at hpre
          exfalso
          by_cases hlen : w.length ≤ usIndexWord.length
          · have hwr : w <+: usIndexWord :=
              List.prefix_of_prefix_length_le hpre (List.prefix_append _ _) hlen
            obtain ⟨i, hwi, hsum⟩ := suffix_eq_drop hwq
            rcases Nat.eq_zero_or_pos i with hi | hi
            · subst hi
              rw [List.drop_zero] at hwi
              subst hwi
              exact g1 hwr.isInfix
            · have hwlen : 0 < w.length := List.length_pos.mpr hw
              exact g3 i (by omega) hi (hwi ▸ hwr)
          · have hrw : usIndexWord <+: w :=
              List.prefix_of_prefix_length_le (List.prefix_append _ _) hpre (by omega)
            obtain ⟨a, ha⟩ := hrw
            obtain ⟨b', hb⟩ := hwq
            exact g4 ⟨b', a, by rw [List.append_assoc, ha, hb]⟩
        · rw [if_neg hm] at hpre
          cases w with
          | nil => exact absurd rfl hw
          | cons d w' =>
            rw [List.cons_prefix_cons] at hpre
            obtain ⟨rfl, hw'⟩ := hpre
            by_cases hw'nil : w' = []
            · subst hw'nil
              exact List.cons_prefix_cons.mpr ⟨rfl, List.nil_prefix⟩
            · exact List.cons_prefix_cons.mpr
                ⟨rfl, ih cs hcs (isWordChar d) w' hw'nil
                  ((List.suffix_cons d w').trans hwq) hw'⟩
  intro l
  exact key l.length l (le_refl _)

/-- The rename pass cannot create an occurrence of a word `q` that does not
occur in or straddle `_index`. -/
theorem not_infix_riAux {q : Line}
    (hq : q ≠ [])
    (g1 : ¬ q <:+: usIndexWord)
    (g2 : ∀ i, i < q.length → 0 < i → ¬ (q.take i <:+ usIndexWord))
    (g3 : ∀ i, i < q.length → 0 < i → ¬ (q.drop i <+: usIndexWord))
    (g4 : ¬ usIndexWord <:+: q) :
    ∀ (l : Line) (b : Bool), ¬ q <:+: l → ¬ q <:+: riAux b l := by
  have key : ∀ n, ∀ l : Line, l.length ≤ n → ∀ b : Bool, ¬ q <:+: l →
      ¬ q <:+: riAux b l := by
    intro n
    induction n with
    | zero =>
      intro l hl _ hql
      have hnil : l = [] := List.length_eq_zero.mp (Nat.le_zero.mp hl)
      subst hnil
      exact hql
    | succ n ih =>
      intro l hl b hql
      cases l with
      | nil => exact hql
      | cons c cs =>
        have hcs : cs.length ≤ n := by
          simp only [List.length_cons] at hl
          omega
        have hqcs : ¬ q <:+: cs :=
          fun hc => hql (hc.trans (List.suffix_cons c cs).isInfix)
        by_cases hm : (!b && riMatch (c :: cs)) = true
        · rw [riAux_cons, if_pos hm]
          intro hinf
          rcases infix_append_cases usIndexWord q _ hinf
            with h' | h' | ⟨u, v, hpv, hu, hv, hur, _⟩
          · exact g1 h'
          · have hd : ¬ q <:+: cs.drop 4 :=
              fun hc => hqcs (hc.trans (List.drop_suffix _ _).isInfix)
            have hdl : (cs.drop 4).length ≤ n := by
              simp only [List.length_drop]
              omega
            exact ih _ hdl true hd h'
          · have hul : u = q.take u.length := by rw [hpv, List.take_left]
            have hvlen : 0 < v.length := List.length_pos.mpr hv
            have hplen := congrArg List.length hpv
            simp only [List.length_append] at hplen
            exact g2 u.length (by omega) (List.length_pos.mpr hu) (hul ▸ hur)
        · rw [riAux_cons, if_neg hm]
          intro hinf
          rcases List.infix_cons_iff.mp hinf with h' | h'
          · have hpre : q <+: riAux b (c :: cs) := by
              rw [riAux_cons, if_neg hm]
              exact h'
            exact hql (prefix_of_riAux g1 g3 g4 (c :: cs) b q hq
              (List.suffix_refl q) hpre).isInfix
          · exact ih cs hcs (isWordChar c) hqcs h'
  intro l
  exact key l.length l (le_refl _)

/-- The rename pass is idempotent: its output contains no further standalone
`index` match (every produced `index` is preceded by the word character `_`,
and kept text was already tested at the same positions with the same
neighbours). -/
theorem riAux_idem : ∀ (l : Line) (b : Bool), riAux b (riAux b l) = riAux b l := by
  have key : ∀ n, ∀ l : Line, l.length ≤ n → ∀ b : Bool,
      riAux b (riAux b l) = riAux b l := by
    intro n
    induction n with
    | zero =>
      intro l hl b
      have hnil : l = [] := List.length_eq_zero.mp (Nat.le_zero.mp hl)
      subst hnil
      rfl
    | succ n ih =>
      intro l hl b
      cases l with
      | nil => rfl
      | cons c cs =>
        have hcs : cs.length ≤ n := by
          simp only [List.length_cons] at hl
          omega
        by_cases hm : (!b && riMatch (c :: cs)) = true
        · have hm' := hm
          rw [Bool.and_eq_true] at hm'
          obtain ⟨hb, hri⟩ := hm'
          have hb' : b = false := by
            cases b
            · rfl
            · simp at hb
          subst hb'
          obtain ⟨rest, hshape, hla⟩ := riMatch_elim hri
          rw [List.cons.injEq] at hshape
          obtain ⟨rfl, hcs'⟩ := hshape
          subst hcs'
          have hrest : rest.length ≤ n := by
            simp only [List.length_cons] at hcs
            omega
          rw [riAux_match rest hla]
          show riAux false ('_' :: 'i' :: 'n' :: 'd' :: 'e' :: 'x' :: riAux true rest) =
            '_' :: 'i' :: 'n' :: 'd' :: 'e' :: 'x' :: riAux true rest
          rw [riAux_cons_us, riAux_cons_wtrue 'i' (by decide),
            riAux_cons_wtrue 'n' (by decide), riAux_cons_wtrue 'd' (by decide),
            riAux_cons_wtrue 'e' (by decide), riAux_cons_wtrue 'x' (by decide),
            ih rest hrest true]
        · rw [riAux_cons, if_neg hm]
          have hnm2 : ¬ (!b && riMatch (c :: riAux (isWordChar c) cs)) = true := by
            intro hm2
            rw [Bool.and_eq_true] at hm2
            obtain ⟨hb, hri⟩ := hm2
            have hb' : b = false := by
              cases b
              · rfl
              · simp at hb
            subst hb'
            apply hm
            rw [Bool.and_eq_true]
            refine ⟨rfl, ?_⟩
            obtain ⟨rest', hshape, hla⟩ := riMatch_elim hri
            rw [List.cons.injEq] at hshape
            obtain ⟨rfl, hT⟩ := hshape
            obtain ⟨cs1, hc1, h1⟩ := riAux_head hT (by decide)
            obtain ⟨cs2, hc2, h2⟩ := riAux_head h1.symm (by decide)
            obtain ⟨cs3, hc3, h3⟩ := riAux_head h2.symm (by decide)
            obtain ⟨cs4, hc4, h4⟩ := riAux_head h3.symm (by decide)
            subst hc4
            subst hc3
            subst hc2
            subst hc1
            rw [riMatch_index]
            cases hr' : rest' with
            | nil =>
              rw [hr'] at h4
              have hcs4 : cs4 = [] := riAux_eq_nil_iff.mp h4.symm
              subst hcs4
              rfl
            | cons d t' =>
              rw [hr'] at h4 hla
              have hdw : isWordChar d = false := by
                unfold lookaheadOk at hla
                rwa [Bool.not_eq_true'] at hla
              have hdus : d ≠ '_' := by
                intro hdeq
                rw [hdeq] at hdw
                exact absurd hdw (by decide)
              obtain ⟨cs5, hc5, _⟩ := riAux_head h4.symm hdus
              rw [hc5]
              show (!isWordChar d) = true
              rw [hdw]
              rfl
          rw [riAux_cons, if_neg hnm2, ih cs hcs (isWordChar c)]
  intro l
  exact key l.length l (le_refl _)

/-- C8: re-running transformation rules 3–5 (SERIAL replacement, integer
normalisation, `index` renaming) on their own output changes nothing: the
output of one application is a fixed point. -/
theorem c8_rules345_idempotent (l : Line) : rules345 (rules345 l) = rules345 l := by
  have hS1 : ¬ serialWord <:+: replaceAll serialWord serialRepl l :=
    not_infix_replaceAll_self (by decide) (by decide) (by decide) (by decide)
      (by decide) l
  have hS2 : ¬ serialWord <:+:
      replaceAll integerWord integerRepl (replaceAll serialWord serialRepl l) :=
    not_infix_replaceAll_other (by decide) (by decide) (by decide) (by decide)
      (by decide) _ hS1
  have hS3 : ¬ serialWord <:+:
      replaceAll bigintWord integerRepl
        (replaceAll integerWord integerRepl (replaceAll serialWord serialRepl l)) :=
    not_infix_replaceAll_other (by decide) (by decide) (by decide) (by decide)
      (by decide) _ hS2
  have hI2 : ¬ integerWord <:+:
      replaceAll integerWord integerRepl (replaceAll serialWord serialRepl l) :=
    not_infix_replaceAll_self (by decide) (by decide) (by decide) (by decide)
      (by decide) _
  have hI3 : ¬ integerWord <:+:
      replaceAll bigintWord integerRepl
        (replaceAll integerWord integerRepl (replaceAll serialWord serialRepl l)) :=
    not_infix_replaceAll_other (by decide) (by decide) (by decide) (by decide)
      (by decide) _ hI2
  have hB3 : ¬ bigintWord <:+:
      replaceAll bigintWord integerRepl
        (replaceAll integerWord integerRepl (replaceAll serialWord serialRepl l)) :=
    not_infix_replaceAll_self (by decide) (by decide) (by decide) (by decide)
      (by decide) _
  have hS4 : ¬ serialWord <:+: rules345 l :=
    not_infix_riAux (by decide) (by decide) (by decide) (by decide) (by decide)
      _ false hS3
  have hI4 : ¬ integerWord <:+: rules345 l :=
    not_infix_riAux (by decide) (by decide) (by decide) (by decide) (by decide)
      _ false hI3
  have hB4 : ¬ bigintWord <:+: rules345 l :=
    not_infix_riAux (by decide) (by decide) (by decide) (by decide) (by decide)
      _ false hB3
  show rules345 (rules345 l) = rules345 l
  conv_lhs => rw [rules345]
  rw [replaceAll_id_of_no_occurrence _ hS4, replaceAll_id_of_no_occurrence _ hI4,
    replaceAll_id_of_no_occurrence _ hB4]
  show riAux false (rules345 l) = rules345 l
  conv_lhs => rw [rules345]
  show riAux false (riAux false (replaceAll bigintWord integerRepl
    (replaceAll integerWord integerRepl (replaceAll serialWord serialRepl l)))) =
    rules345 l
  rw [riAux_idem]
  rfl

end PgDump
